import Mathlib

/-!
Verification of the tech-news-blog generation pipeline
(`scripts/generate.py` and `scripts/llm_translate.py`).

The development shallowly embeds the core pipeline: the category
classifier, the balanced article selector, the deduplication filter,
the translation-cache loop of `create_blog_post`, and the
translation-backend dispatch of `translate_with_llm` /
`translate_title_and_summary`.  File system and network effects are
abstracted: prior posts become an explicit `Nat → Option (List String)`
map of extracted links, and a backend call becomes the
`Except String (String × String)` value it would produce (an `error`
models a raised exception).
-/

/-! ### String helpers (Python `str.lower` and the `in` containment test) -/

/-- ASCII lowering of a string, modelling Python's `title.lower()` on the
ASCII keyword alphabet used by `categorize`. -/
def lowerStr (s : String) : String := String.mk (s.data.map Char.toLower)

/-- `containsSub sub l` decides whether `sub` occurs contiguously inside `l`. -/
def containsSub (sub l : List Char) : Bool :=
  match l with
  | [] => sub.isEmpty
  | _ :: t => sub.isPrefixOf l || containsSub sub t

/-- Python's `sub in t` on strings: contiguous substring containment. -/
def strContains (t sub : String) : Bool := containsSub sub.data t.data

/-! ### Article records (the dicts produced by the source adapters) -/

/-- A candidate news item, as normalised by the fetchers in `generate.py`.
Optional fields model dict keys that may be absent or `None`. -/
structure Article where
  title : String
  link : Option String
  description : Option String
  source : Option String
  source_name : Option String
deriving Repr, DecidableEq

/-- `a.get('source', 'unknown')` from `pick_articles_balanced`. -/
def sourceOf (a : Article) : String := a.source.getD "unknown"

/-! ### Category classifier (`categorize`, generate.py lines 96-109) -/

def CATEGORIES : List String :=
  ["AI 与机器学习", "游戏与怀旧科技", "开发工具与开源", "基础设施与行业", "趣闻"]

def aiKeywords : List String :=
  ["ai", "llm", "model", "agent", "gpt", "claude", "grok", "ml ", "neural", "deep learning"]

def gameKeywords : List String :=
  ["game", "gaming", "retro", "vintage", "nostalgia", "classic", "emulator", "amiga", "commodore"]

def devKeywords : List String :=
  ["rust", "python", "javascript", "github", "open source", "framework", "library", "tool",
   "compiler", "database", "sql"]

def infraKeywords : List String :=
  ["cloud", "aws", "gcp", "azure", "server", "datacenter", "infrastructure", "kubernetes",
   "docker", "devops", "security", "privacy", "encryption"]

/-- `categorize(title)`: first keyword family (in the fixed order of the
`if`/`elif` chain) with a member contained in the lowered title wins;
the final `else` returns the catch-all category. -/
def categorize (title : String) : String :=
  let t := lowerStr title
  if aiKeywords.any (fun k => strContains t k) then "AI 与机器学习"
  else if gameKeywords.any (fun k => strContains t k) then "游戏与怀旧科技"
  else if devKeywords.any (fun k => strContains t k) then "开发工具与开源"
  else if infraKeywords.any (fun k => strContains t k) then "基础设施与行业"
  else "趣闻"

/-- The classifier as the spec describes it (§4.4): a fixed ordered table of
`(category, keyword set)` pairs, the first table row with a matching keyword
wins, and a catch-all default is returned when no row matches.  Used to show
`categorize` refines the spec's table-driven description. -/
def categoryTable : List (String × List String) :=
  [("AI 与机器学习", aiKeywords),
   ("游戏与怀旧科技", gameKeywords),
   ("开发工具与开源", devKeywords),
   ("基础设施与行业", infraKeywords)]

/-- Spec-side classifier: first table row whose keyword set matches, else the
catch-all category. -/
def classifySpec (title : String) : String :=
  ((categoryTable.find? (fun p => p.2.any (fun k => strContains (lowerStr title) k))).map
    (fun p => p.1)).getD "趣闻"

theorem categorize_eq_classifySpec (title : String) : categorize title = classifySpec title := by
  simp only [categorize, classifySpec, categoryTable, List.find?]
  cases h1 : aiKeywords.any (fun k => strContains (lowerStr title) k) <;>
  cases h2 : gameKeywords.any (fun k => strContains (lowerStr title) k) <;>
  cases h3 : devKeywords.any (fun k => strContains (lowerStr title) k) <;>
  cases h4 : infraKeywords.any (fun k => strContains (lowerStr title) k) <;>
  simp [h1, h2, h3, h4]

theorem categorize_mem_CATEGORIES (title : String) : categorize title ∈ CATEGORIES := by
  simp only [categorize, CATEGORIES]
  cases aiKeywords.any (fun k => strContains (lowerStr title) k) <;>
  cases gameKeywords.any (fun k => strContains (lowerStr title) k) <;>
  cases devKeywords.any (fun k => strContains (lowerStr title) k) <;>
  cases infraKeywords.any (fun k => strContains (lowerStr title) k) <;>
  simp

/-- Claim C7: the category classifier is a total, pure function of the title:
it agrees everywhere with the spec's first-match table-driven classifier
(fixed priority order, case-insensitive substring test, catch-all default),
always returns a member of the fixed category list, `categorize ""` is the
catch-all category, and `categorize "New LLM model released"` is the AI/ML
category. -/
theorem categorize_total_first_match :
    categorize "" = "趣闻"
    ∧ categorize "New LLM model released" = "AI 与机器学习"
    ∧ ∀ title, categorize title = classifySpec title ∧ categorize title ∈ CATEGORIES := by
  refine ⟨by decide, by decide, fun title => ⟨categorize_eq_classifySpec title, categorize_mem_CATEGORIES title⟩⟩

/-! ### Deduplication filter (`dedupe_articles`, generate.py lines 344-359)

The file system is abstracted: `docs i` is the list of links extracted
(by the `[原文链接](...)` scan) from the post published `i` days before the
current date, or `none` when that file does not exist.  The Python loop
`for i in range(1, days + 1)` unions the links of days `1 .. days`. -/

/-- The `seen_links` set built by `dedupe_articles`: the union of the links of
the `days` calendar dates immediately preceding the current date, a missing
document contributing nothing. -/
def seenLinks (docs : Nat → Option (List String)) (days : Nat) : List String :=
  (List.range days).flatMap (fun i => (docs (i + 1)).getD [])

/-- `a.get("link") not in seen_links` is false only when the article has a
link and that link was already seen. -/
def linkSeen (seen : List String) (a : Article) : Bool :=
  match a.link with
  | some l => seen.contains l
  | none => false

/-- `dedupe_articles`: keep, in input order, the articles whose link is not in
the union of recently published links. -/
def dedupe_articles (articles : List Article) (docs : Nat → Option (List String))
    (days : Nat) : List Article :=
  articles.filter (fun a => !linkSeen (seenLinks docs days) a)

theorem mem_seenLinks (docs : Nat → Option (List String)) (days : Nat) (l : String) :
    l ∈ seenLinks docs days ↔ ∃ i, i < days ∧ l ∈ (docs (i + 1)).getD [] := by
  simp [seenLinks, List.mem_flatMap]

theorem mem_dedupe_articles (articles : List Article) (docs : Nat → Option (List String))
    (days : Nat) (a : Article) :
    a ∈ dedupe_articles articles docs days ↔
      a ∈ articles ∧ ∀ l, a.link = some l → ∀ i, i < days → l ∉ (docs (i + 1)).getD [] := by
  simp only [dedupe_articles, List.mem_filter, Bool.not_eq_true']
  constructor
  · rintro ⟨ha, hkeep⟩
    refine ⟨ha, fun l hl i hi hmem => ?_⟩
    have hc : (seenLinks docs days).contains l = false := by
      simpa [linkSeen, hl] using hkeep
    have hmem' : (seenLinks docs days).contains l = true :=
      List.elem_iff.2 ((mem_seenLinks docs days l).2 ⟨i, hi, hmem⟩)
    rw [hmem'] at hc
    exact absurd hc (by simp)
  · rintro ⟨ha, hnot⟩
    refine ⟨ha, ?_⟩
    unfold linkSeen
    cases hl : a.link with
    | none => rfl
    | some l =>
      rw [Bool.eq_false_iff]
      intro hc
      obtain ⟨i, hi, hmem⟩ := (mem_seenLinks docs days l).1 (List.elem_iff.1 hc)
      exact hnot l hl i hi hmem

theorem dedupe_missing_doc_irrelevant (articles : List Article)
    (docs : Nat → Option (List String)) (days j : Nat) (hj : docs j = none) :
    dedupe_articles articles (Function.update docs j (some [])) days
      = dedupe_articles articles docs days := by
  have hseen : seenLinks (Function.update docs j (some [])) days = seenLinks docs days := by
    unfold seenLinks
    refine List.flatMap_congr ?_
    intro i _
    by_cases h : i + 1 = j
    · subst h
      simp [Function.update, hj]
    · simp [Function.update, h]
  simp [dedupe_articles, hseen]

/-- Claim C5: the deduplication filter drops exactly the articles whose link
occurs among the links of the `days` prior documents, keeps all other
articles in their original input order (the output is a sublist of the
input), and a missing prior document contributes no links (replacing a
missing document by an empty one does not change the result). -/
theorem dedupe_articles_spec (articles : List Article) (docs : Nat → Option (List String))
    (days : Nat) :
    (∀ a, a ∈ dedupe_articles articles docs days ↔
        a ∈ articles ∧ ∀ l, a.link = some l → ∀ i, i < days → l ∉ (docs (i + 1)).getD [])
    ∧ (dedupe_articles articles docs days).Sublist articles
    ∧ ∀ j, docs j = none →
        dedupe_articles articles (Function.update docs j (some [])) days
          = dedupe_articles articles docs days :=
  ⟨fun a => mem_dedupe_articles articles docs days a,
   List.filter_sublist articles,
   fun j hj => dedupe_missing_doc_irrelevant articles docs days j hj⟩

/-- Witness for claim C5 at a concrete input: one seen article is dropped,
and updating a missing prior day to an empty document changes nothing. -/
theorem dedupe_articles_spec_witness :
    dedupe_articles
        [{ title := "t", link := some "L", description := none, source := some "s1",
           source_name := some "S1" }]
        (Function.update (fun i => if i = 1 then some ["L"] else none) 2 (some [])) 3
      = dedupe_articles
          [{ title := "t", link := some "L", description := none, source := some "s1",
             source_name := some "S1" }]
          (fun i => if i = 1 then some ["L"] else none) 3 :=
  (dedupe_articles_spec
      [{ title := "t", link := some "L", description := none, source := some "s1",
         source_name := some "S1" }]
      (fun i => if i = 1 then some ["L"] else none) 3).2.2 2 (by decide)

/-! ### Translation backends (`llm_translate.py` and `translate_with_llm`)

A backend call is abstracted as the `Except String (String × String)`
value it produces: `Except.ok (zh_title, zh_summary)` for a successful
call (network round trip plus response parsing), `Except.error e` for a
raised exception anywhere inside that call.  The configuration booleans
model the truthiness of the stripped `ANTHROPIC_API_KEY` /
`OPENAI_API_KEY` environment variables, read identically by both files. -/

/-- `source_name or "社区"`: Python falsiness sends both a missing and an
empty source name to the generic display name. -/
def fallbackSrcName (source_name : Option String) : String :=
  match source_name with
  | some s => if s = "" then "社区" else s
  | none => "社区"

/-- The fixed three-placeholder-bullet block appended to the template
summary (and the exact string appended in `translate_with_llm`). -/
def templateBullets : String :=
  "\n\n要点：\n- 细节待补充\n- 细节待补充\n- 细节待补充"

/-- The template summary of the no-backend fallback branch of
`translate_with_llm`: `f"来自 {src} 的热门话题。"` plus the placeholder
bullet block. -/
def fallbackSummary (source_name : Option String) : String :=
  "来自 " ++ fallbackSrcName source_name ++ " 的热门话题。" ++ templateBullets

/-- The `(zh_title, zh_summary)` pair of the template fallback: the original
title untouched, plus the template summary. -/
def fallbackPair (title : String) (source_name : Option String) : String × String :=
  (title, fallbackSummary source_name)

/-- `translate_title_and_summary` (llm_translate.py): Minimax first when
`ANTHROPIC_API_KEY` is set, any exception in that path re-raised as
`RuntimeError("Minimax translation failed: ...")`; otherwise the OpenAI
path when `OPENAI_API_KEY` is set, its exceptions propagating untouched;
otherwise a `RuntimeError` that no backend is configured. -/
def translate_title_and_summary (anthropicKey openaiKey : Bool)
    (minimaxCall openaiCall : Except String (String × String)) :
    Except String (String × String) :=
  if anthropicKey then
    match minimaxCall with
    | Except.ok r => Except.ok r
    | Except.error e => Except.error ("Minimax translation failed: " ++ e)
  else if openaiKey then openaiCall
  else Except.error "No translation API configured (neither ANTHROPIC_API_KEY nor OPENAI_API_KEY)"

/-- `translate_with_llm` (generate.py lines 113-148): when some API key is
configured it calls `translate_title_and_summary` inside a
`try/except Exception` whose handler only prints a debug line, so control
falls through to the template fallback on any backend exception; with no
key configured the template fallback is returned directly.  The function
never raises. -/
def translate_with_llm (anthropicKey openaiKey : Bool)
    (minimaxCall openaiCall : Except String (String × String))
    (title : String) (source_name : Option String) : String × String :=
  if anthropicKey || openaiKey then
    match translate_title_and_summary anthropicKey openaiKey minimaxCall openaiCall with
    | Except.ok r => r
    | Except.error _ => fallbackPair title source_name
  else fallbackPair title source_name

/-- Counterexample to claim C1 as stated: with the Minimax backend
configured (`ANTHROPIC_API_KEY` set) and the backend call raising, the
inner `translate_title_and_summary` does re-raise, but
`translate_with_llm` swallows the exception and produces the deterministic
template fallback — the very reaction to a backend-call failure that the
claim rules out. -/
theorem translate_with_llm_swallows_counterexample :
    translate_title_and_summary true false (Except.error "boom") (Except.error "x")
        = Except.error "Minimax translation failed: boom"
    ∧ translate_with_llm true false (Except.error "boom") (Except.error "x") "T" (some "Hacker News")
        = fallbackPair "T" (some "Hacker News") :=
  ⟨rfl, rfl⟩

/-- Claim C1, amended: a backend-call exception propagates out of
`translate_title_and_summary` (Minimax failures re-raised with a
`"Minimax translation failed: "` prefix, OpenAI failures propagated
verbatim), but `translate_with_llm` catches every such exception and
returns the deterministic template fallback instead; the template is
therefore produced both when no backend is configured and when a
configured backend call fails, and a successful backend result is
returned unchanged.  Resolution never propagates a backend error to its
caller. -/
theorem translate_with_llm_fallback_on_error (e : String)
    (mc oc : Except String (String × String)) (t : String) (s : Option String)
    (r : String × String) :
    translate_title_and_summary true false (Except.error e) oc
        = Except.error ("Minimax translation failed: " ++ e)
    ∧ translate_title_and_summary false true mc (Except.error e) = Except.error e
    ∧ translate_with_llm true false (Except.error e) oc t s = fallbackPair t s
    ∧ translate_with_llm false true mc (Except.error e) t s = fallbackPair t s
    ∧ translate_with_llm false false mc oc t s = fallbackPair t s
    ∧ translate_with_llm true false (Except.ok r) oc t s = r
    ∧ translate_with_llm false true mc (Except.ok r) t s = r :=
  ⟨rfl, rfl, rfl, rfl, rfl, rfl, rfl⟩

/-! ### Translation cache loop (`create_blog_post`, generate.py lines 306-327)

The persisted `translations.json` dict is modelled as an association list
in insertion order (Python dicts preserve insertion order); `cacheGet` is
`cache[key]` lookup, `cacheSet` is `cache[key] = value`.  The per-article
loop of `create_blog_post` is `runTranslationLoop`: besides the final
cache it records, in order, the `(key, zh_title, zh_summary)` resolution
assigned to each keyed article and the list of keys for which the
translation backend was actually invoked. -/

/-- `key = a.get("link") or a.get("title")`, with `if not key: continue`:
Python falsiness sends a missing or empty link to the title, and a missing
or empty title to no key at all. -/
def keyOf (a : Article) : Option String :=
  let l := (a.link.getD "")
  if l ≠ "" then some l
  else if a.title ≠ "" then some a.title
  else none

/-- Dict lookup `cache.get(key)` on the insertion-ordered association list. -/
def cacheGet (c : List (String × String × String)) (k : String) :
    Option (String × String) :=
  (c.find? (fun p => p.1 == k)).map (fun p => p.2)

/-- Dict assignment `cache[key] = value`: replace in place when the key
exists, append otherwise. -/
def cacheSet (c : List (String × String × String)) (k : String) (v : String × String) :
    List (String × String × String) :=
  if (c.find? (fun p => p.1 == k)).isSome then
    c.map (fun p => if p.1 == k then (k, v) else p)
  else c ++ [(k, v)]

/-- Result of the translation loop: final cache, per-article resolutions
`(key, pair)` in article order, and the keys that caused a backend call. -/
structure RunResult where
  cache : List (String × String × String)
  resolved : List (String × String × String)
  calls : List String
deriving Repr, DecidableEq

/-- The `for a in articles:` loop of `create_blog_post`: keyless articles are
skipped; a cache hit copies the cached pair onto the article; a cache miss
calls the backend (`translate`), assigns the pair, and stores it in the
cache. -/
def runTranslationLoop (translate : Article → String × String) :
    List Article → List (String × String × String) → RunResult
  | [], c => ⟨c, [], []⟩
  | a :: rest, c =>
    match keyOf a with
    | none => runTranslationLoop translate rest c
    | some k =>
      match cacheGet c k with
      | some v =>
        let r := runTranslationLoop translate rest c
        ⟨r.cache, (k, v) :: r.resolved, r.calls⟩
      | none =>
        let v := translate a
        let r := runTranslationLoop translate rest (cacheSet c k v)
        ⟨r.cache, (k, v) :: r.resolved, k :: r.calls⟩

theorem runTranslationLoop_cons_nokey (translate : Article → String × String)
    (a : Article) (rest : List Article) (c : List (String × String × String))
    (hk : keyOf a = none) :
    runTranslationLoop translate (a :: rest) c = runTranslationLoop translate rest c := by
  conv_lhs => unfold runTranslationLoop
  simp only [hk]

theorem runTranslationLoop_cons_hit (translate : Article → String × String)
    (a : Article) (rest : List Article) (c : List (String × String × String))
    (k0 : String) (v0 : String × String)
    (hk : keyOf a = some k0) (hc : cacheGet c k0 = some v0) :
    runTranslationLoop translate (a :: rest) c =
      ⟨(runTranslationLoop translate rest c).cache,
       (k0, v0) :: (runTranslationLoop translate rest c).resolved,
       (runTranslationLoop translate rest c).calls⟩ := by
  conv_lhs => unfold runTranslationLoop
  simp only [hk, hc]

theorem runTranslationLoop_cons_miss (translate : Article → String × String)
    (a : Article) (rest : List Article) (c : List (String × String × String))
    (k0 : String) (hk : keyOf a = some k0) (hc : cacheGet c k0 = none) :
    runTranslationLoop translate (a :: rest) c =
      ⟨(runTranslationLoop translate rest (cacheSet c k0 (translate a))).cache,
       (k0, translate a) ::
         (runTranslationLoop translate rest (cacheSet c k0 (translate a))).resolved,
       k0 :: (runTranslationLoop translate rest (cacheSet c k0 (translate a))).calls⟩ := by
  conv_lhs => unfold runTranslationLoop
  simp only [hk, hc]

theorem cacheGet_eq_none_iff (c : List (String × String × String)) (k : String) :
    cacheGet c k = none ↔ c.find? (fun p => p.1 == k) = none := by
  unfold cacheGet
  cases c.find? (fun p => p.1 == k) <;> simp

theorem cacheSet_of_miss (c : List (String × String × String)) (k : String)
    (v : String × String) (h : cacheGet c k = none) :
    cacheSet c k v = c ++ [(k, v)] := by
  unfold cacheSet
  rw [(cacheGet_eq_none_iff c k).1 h]
  simp

theorem cacheGet_set_self (c : List (String × String × String)) (k : String)
    (v : String × String) (h : cacheGet c k = none) :
    cacheGet (cacheSet c k v) k = some v := by
  rw [cacheSet_of_miss c k v h]
  unfold cacheGet
  rw [List.find?_append, (cacheGet_eq_none_iff c k).1 h]
  simp [List.find?]

theorem cacheGet_set_preserve (c : List (String × String × String)) (k k' : String)
    (v v' : String × String) (hmiss : cacheGet c k = none)
    (h : cacheGet c k' = some v') :
    cacheGet (cacheSet c k v) k' = some v' := by
  rw [cacheSet_of_miss c k v hmiss]
  unfold cacheGet at h ⊢
  rw [List.find?_append]
  cases hf : c.find? (fun p => p.1 == k') with
  | none => rw [hf] at h; simp at h
  | some p => rw [hf] at h; simp [Option.or, h]

/-- Entries present at the start of the loop survive it unchanged. -/
theorem runTranslationLoop_preserves (translate : Article → String × String)
    (articles : List Article) (c : List (String × String × String))
    (k : String) (v : String × String) (h : cacheGet c k = some v) :
    cacheGet (runTranslationLoop translate articles c).cache k = some v := by
  induction articles generalizing c with
  | nil => exact h
  | cons a rest ih =>
    cases hk : keyOf a with
    | none => rw [runTranslationLoop_cons_nokey translate a rest c hk]; exact ih c h
    | some k0 =>
      cases hc : cacheGet c k0 with
      | some v0 => rw [runTranslationLoop_cons_hit translate a rest c k0 v0 hk hc]; exact ih c h
      | none =>
        rw [runTranslationLoop_cons_miss translate a rest c k0 hk hc]
        exact ih (cacheSet c k0 (translate a)) (cacheGet_set_preserve c k0 k _ v hc h)

/-- The loop only adds cache entries: a key whose value changed was absent
at the start. -/
theorem runTranslationLoop_new_only (translate : Article → String × String)
    (articles : List Article) (c : List (String × String × String)) (k : String)
    (h : cacheGet (runTranslationLoop translate articles c).cache k ≠ cacheGet c k) :
    cacheGet c k = none := by
  cases hc : cacheGet c k with
  | none => rfl
  | some v =>
    exact absurd (runTranslationLoop_preserves translate articles c k v hc) (hc ▸ h)

/-- Every recorded resolution agrees with the final cache entry for its key. -/
theorem runTranslationLoop_resolved_in_cache (translate : Article → String × String)
    (articles : List Article) (c : List (String × String × String))
    (k : String) (p : String × String)
    (h : (k, p) ∈ (runTranslationLoop translate articles c).resolved) :
    cacheGet (runTranslationLoop translate articles c).cache k = some p := by
  induction articles generalizing c with
  | nil => simp [runTranslationLoop] at h
  | cons a rest ih =>
    cases hk : keyOf a with
    | none =>
      rw [runTranslationLoop_cons_nokey translate a rest c hk] at h ⊢
      exact ih c h
    | some k0 =>
      cases hc : cacheGet c k0 with
      | some v0 =>
        rw [runTranslationLoop_cons_hit translate a rest c k0 v0 hk hc] at h ⊢
        simp only [List.mem_cons] at h
        rcases h with h | h
        · rw [Prod.mk.injEq] at h
          obtain ⟨hk1, hk2⟩ := h
          subst hk1
          subst hk2
          exact runTranslationLoop_preserves translate rest c _ _ hc
        · exact ih c h
      | none =>
        rw [runTranslationLoop_cons_miss translate a rest c k0 hk hc] at h ⊢
        simp only [List.mem_cons] at h
        rcases h with h | h
        · rw [Prod.mk.injEq] at h
          obtain ⟨hk1, hk2⟩ := h
          subst hk1
          subst hk2
          exact runTranslationLoop_preserves translate rest _ _ _
            (cacheGet_set_self c _ (translate a) hc)
        · exact ih (cacheSet c k0 (translate a)) h

/-- A key for which the backend was called was absent from the cache the
loop started from. -/
theorem runTranslationLoop_calls_missing (translate : Article → String × String)
    (articles : List Article) (c : List (String × String × String)) (k : String)
    (h : k ∈ (runTranslationLoop translate articles c).calls) :
    cacheGet c k = none := by
  induction articles generalizing c with
  | nil => simp [runTranslationLoop] at h
  | cons a rest ih =>
    cases hk : keyOf a with
    | none => rw [runTranslationLoop_cons_nokey translate a rest c hk] at h; exact ih c h
    | some k0 =>
      cases hc : cacheGet c k0 with
      | some v0 => rw [runTranslationLoop_cons_hit translate a rest c k0 v0 hk hc] at h; exact ih c h
      | none =>
        rw [runTranslationLoop_cons_miss translate a rest c k0 hk hc] at h
        simp only [List.mem_cons] at h
        rcases h with h | h
        · exact h ▸ hc
        · have h' := ih (cacheSet c k0 (translate a)) h
          cases hck : cacheGet c k with
          | none => rfl
          | some v =>
            exact absurd (cacheGet_set_preserve c k0 k (translate a) v hc hck) (by simp [h'])

/-- The backend is called at most once per key in a run. -/
theorem runTranslationLoop_calls_nodup (translate : Article → String × String)
    (articles : List Article) (c : List (String × String × String)) :
    (runTranslationLoop translate articles c).calls.Nodup := by
  induction articles generalizing c with
  | nil => simp [runTranslationLoop]
  | cons a rest ih =>
    cases hk : keyOf a with
    | none => rw [runTranslationLoop_cons_nokey translate a rest c hk]; exact ih c
    | some k0 =>
      cases hc : cacheGet c k0 with
      | some v0 => rw [runTranslationLoop_cons_hit translate a rest c k0 v0 hk hc]; exact ih c
      | none =>
        rw [runTranslationLoop_cons_miss translate a rest c k0 hk hc]
        refine List.nodup_cons.2 ⟨fun hmem => ?_, ih _⟩
        have := runTranslationLoop_calls_missing translate rest _ k0 hmem
        rw [cacheGet_set_self c k0 (translate a) hc] at this
        exact Option.noConfusion this

/-- Claim C4: read-merge cache semantics — every entry present in the cache
when it is read at the start of the run is present and unmodified in the
cache the run finishes with (the dict written back at the end of
`create_blog_post`), and the loop only adds entries: any key whose value
differs at the end was absent at the start. -/
theorem cache_read_merge (translate : Article → String × String)
    (articles : List Article) (c : List (String × String × String)) :
    (∀ k v, cacheGet c k = some v →
        cacheGet (runTranslationLoop translate articles c).cache k = some v)
    ∧ ∀ k, cacheGet (runTranslationLoop translate articles c).cache k ≠ cacheGet c k →
        cacheGet c k = none :=
  ⟨fun k v h => runTranslationLoop_preserves translate articles c k v h,
   fun k h => runTranslationLoop_new_only translate articles c k h⟩

/-- Witness for claim C4: a concrete pre-existing entry survives a run that
translates a fresh article. -/
theorem cache_read_merge_witness :
    cacheGet (runTranslationLoop (fun a => (a.title, "摘要"))
        [{ title := "t2", link := some "L2", description := none, source := some "s",
           source_name := some "S" }]
        [("L1", "标题一", "摘要一")]).cache "L1" = some ("标题一", "摘要一") :=
  (cache_read_merge (fun a => (a.title, "摘要"))
      [{ title := "t2", link := some "L2", description := none, source := some "s",
         source_name := some "S" }]
      [("L1", "标题一", "摘要一")]).1 "L1" ("标题一", "摘要一") (by decide)

/-- Claim C6: cache idempotence — within a run the backend is invoked at most
once per key, all resolutions of the same key return the identical pair, and
for a key already cached at the start of the run (e.g. persisted by an
earlier run) the backend is not invoked at all and every resolution of that
key returns the cached pair verbatim, independent of the article's current
content. -/
theorem cache_idempotent (translate : Article → String × String)
    (articles : List Article) (c : List (String × String × String)) :
    (runTranslationLoop translate articles c).calls.Nodup
    ∧ (∀ k p q, (k, p) ∈ (runTranslationLoop translate articles c).resolved →
        (k, q) ∈ (runTranslationLoop translate articles c).resolved → p = q)
    ∧ ∀ k v, cacheGet c k = some v →
        k ∉ (runTranslationLoop translate articles c).calls
        ∧ ∀ p, (k, p) ∈ (runTranslationLoop translate articles c).resolved → p = v := by
  refine ⟨runTranslationLoop_calls_nodup translate articles c, fun k p q hp hq => ?_, fun k v h => ⟨fun hmem => ?_, fun p hp => ?_⟩⟩
  · have h1 := runTranslationLoop_resolved_in_cache translate articles c k p hp
    have h2 := runTranslationLoop_resolved_in_cache translate articles c k q hq
    rw [h1] at h2
    exact Option.some.inj h2
  · have := runTranslationLoop_calls_missing translate articles c k hmem
    rw [h] at this
    exact Option.noConfusion this
  · have h1 := runTranslationLoop_resolved_in_cache translate articles c k p hp
    have h2 := runTranslationLoop_preserves translate articles c k v h
    rw [h1] at h2
    exact Option.some.inj h2

/-- Witness for claim C6: with `L` already cached, resolving an article whose
content changed makes no backend call for `L`. -/
theorem cache_idempotent_witness :
    "L" ∉ (runTranslationLoop (fun a => (a.title, "新摘要"))
        [{ title := "changed title", link := some "L", description := none,
           source := some "s", source_name := some "S" }]
        [("L", "标题一", "摘要一")]).calls :=
  ((cache_idempotent (fun a => (a.title, "新摘要"))
      [{ title := "changed title", link := some "L", description := none,
         source := some "s", source_name := some "S" }]
      [("L", "标题一", "摘要一")]).2.2 "L" ("标题一", "摘要一") (by decide)).1

/-! ### The template fallback shape (claim C8) -/

/-- Split a character list at newline characters. -/
def splitLinesAux : List Char → List Char → List (List Char)
  | [], acc => [acc.reverse]
  | ch :: rest, acc =>
    if ch = '\n' then acc.reverse :: splitLinesAux rest []
    else splitLinesAux rest (ch :: acc)

/-- The lines of a string (split at newline characters). -/
def splitLines (s : String) : List (List Char) := splitLinesAux s.data []

theorem containsSub_append_middle (sub l1 l2 : List Char) :
    containsSub sub (l1 ++ (sub ++ l2)) = true := by
  induction l1 with
  | nil =>
    rw [List.nil_append]
    cases hs : sub with
    | nil =>
      cases l2 with
      | nil => rfl
      | cons c t => simp [containsSub, List.isPrefixOf]
    | cons c t =>
      have hpre : (c :: t).isPrefixOf ((c :: t) ++ l2) = true := by
        rw [List.isPrefixOf_iff_prefix]
        exact List.prefix_append (c :: t) l2
      rw [List.cons_append]
      simp only [containsSub]
      rw [← List.cons_append, hpre]
      simp
  | cons c t ih =>
    rw [List.cons_append]
    simp only [containsSub]
    rw [ih]
    simp

theorem strContains_middle (p n q : String) : strContains (p ++ n ++ q) n = true := by
  unfold strContains
  have : (p ++ n ++ q).data = p.data ++ (n.data ++ q.data) := by
    simp [String.data_append, List.append_assoc]
  rw [this]
  exact containsSub_append_middle n.data p.data q.data

/-- Claim C8: when no translation backend is configured, resolution returns
the original title unchanged together with the deterministic template
summary; that summary is the fixed sentence referencing the source's
display name followed by the fixed block containing exactly 3 placeholder
bullet lines, it contains the display name (the given source name when
non-empty, the generic name otherwise), and on a cache miss the pair is
written into the cache under the article's key. -/
theorem no_backend_template (mc oc : Except String (String × String))
    (title : String) (src : Option String) :
    translate_with_llm false false mc oc title src = (title, fallbackSummary src)
    ∧ fallbackSummary src = "来自 " ++ fallbackSrcName src ++ " 的热门话题。" ++ templateBullets
    ∧ ((splitLines templateBullets).filter (fun ln => ln.take 2 = ['-', ' '])).length = 3
    ∧ strContains (fallbackSummary src) (fallbackSrcName src) = true
    ∧ (∀ s, src = some s → s ≠ "" → strContains (fallbackSummary src) s = true)
    ∧ ∀ (c : List (String × String × String)) (a : Article) (k : String),
        keyOf a = some k → cacheGet c k = none →
        cacheGet (runTranslationLoop
            (fun x => translate_with_llm false false mc oc x.title x.source_name) [a] c).cache k
          = some (a.title, fallbackSummary a.source_name) := by
  refine ⟨rfl, rfl, by decide, ?_, ?_, ?_⟩
  · have h := strContains_middle "来自 " (fallbackSrcName src) (" 的热门话题。" ++ templateBullets)
    simpa [fallbackSummary, String.append_assoc] using h
  · intro s hs hne
    subst hs
    have h := strContains_middle "来自 " s (" 的热门话题。" ++ templateBullets)
    have hname : fallbackSrcName (some s) = s := by simp [fallbackSrcName, hne]
    simpa [fallbackSummary, hname, String.append_assoc] using h
  · intro c a k hk hc
    rw [runTranslationLoop_cons_miss _ a [] c k hk hc]
    simpa using cacheGet_set_self c k _ hc

/-- Witness for claim C8 at a concrete article: the fallback pair lands in
the cache under the article's link. -/
theorem no_backend_template_witness :
    cacheGet (runTranslationLoop
        (fun x => translate_with_llm false false (Except.error "e") (Except.error "e")
          x.title x.source_name)
        [{ title := "T", link := some "L", description := none, source := some "s",
           source_name := some "Hacker News" }] []).cache "L"
      = some ("T", fallbackSummary (some "Hacker News")) :=
  (no_backend_template (Except.error "e") (Except.error "e") "T" (some "Hacker News")).2.2.2.2.2
    [] { title := "T", link := some "L", description := none, source := some "s",
         source_name := some "Hacker News" } "L" (by decide) (by decide)

/-! ### Balanced selector (`pick_articles_balanced`, generate.py lines 245-279)

Grouping articles into `buckets` preserves each source's original relative
order, so the bucket of `src` is exactly the sublist of articles whose
source is `src`; a key absent from the Python dict corresponds to an empty
bucket, which makes the `src in buckets` guards redundant in the model.
The `while` fill loop is embedded with an explicit fuel argument; one fuel
unit is spent per outer round, `maxBucketLen + 1` units always suffice
(proved as fuel-stability in `pick_articles_balanced_terminates`). -/

/-- `buckets[src]`: the articles of `src` in their original relative order. -/
def bucketOf (articles : List Article) (src : String) : List Article :=
  articles.filter (fun a => sourceOf a == src)

/-- `sorted(buckets.keys())`: the distinct observed sources in lexicographic
order. -/
def sortedKeys (articles : List Article) : List String :=
  ((articles.map sourceOf).dedup).mergeSort (fun a b => a ≤ b)

/-- `order = source_order or sorted(buckets.keys())` (Python falsiness: an
empty list falls back to the sorted observed sources). -/
def effOrder (articles : List Article) (source_order : List String) : List String :=
  if source_order.isEmpty then sortedKeys articles else source_order

/-- Pass 1 of the selector: take up to `perSource` from each source in
priority order, short-circuiting (`Sum.inl`) with `picked[:limit]` as soon
as `limit` is reached. -/
def pass1 (bkts : String → List Article) (perSource limit : Nat) :
    List String → List Article → Sum (List Article) (List Article)
  | [], picked => Sum.inr picked
  | src :: rest, picked =>
    let picked' := picked ++ (bkts src).take perSource
    if limit ≤ picked'.length then Sum.inl (picked'.take limit)
    else pass1 bkts perSource limit rest picked'

/-- One round of the fill pass at bucket index `i`: append the index-`i`
item of each bucket that has one, in priority order, short-circuiting at
`limit`; the boolean accumulates Python's `progressed` flag. -/
def fillPass (bkts : String → List Article) (i limit : Nat) :
    List String → List Article → Bool → Sum (List Article) (List Article × Bool)
  | [], picked, prog => Sum.inr (picked, prog)
  | src :: rest, picked, prog =>
    match (bkts src)[i]? with
    | none => fillPass bkts i limit rest picked prog
    | some a =>
      if limit ≤ (picked ++ [a]).length then Sum.inl ((picked ++ [a]).take limit)
      else fillPass bkts i limit rest (picked ++ [a]) true

/-- The `while len(picked) < limit` fill loop: run rounds at increasing
bucket index, stop at `limit` or after a round with no progress. -/
def fillLoop (bkts : String → List Article) (order : List String) (limit : Nat) :
    Nat → Nat → List Article → List Article
  | 0, _, picked => picked.take limit
  | Nat.succ fuel, i, picked =>
    if picked.length < limit then
      match fillPass bkts i limit order picked false with
      | Sum.inl result => result
      | Sum.inr (picked', true) => fillLoop bkts order limit fuel (i + 1) picked'
      | Sum.inr (picked', false) => picked'.take limit
    else picked.take limit

/-- The largest bucket length over the priority order; rounds past this
index can make no progress. -/
def maxBucketLen (bkts : String → List Article) (order : List String) : Nat :=
  (order.map (fun s => (bkts s).length)).foldr max 0

/-- `pick_articles_balanced` with the fill loop's fuel exposed. -/
def pickBalancedFuel (fuel : Nat) (articles : List Article) (limit perSource : Nat)
    (source_order : List String) : List Article :=
  match pass1 (bucketOf articles) perSource limit (effOrder articles source_order) [] with
  | Sum.inl result => result
  | Sum.inr picked =>
      fillLoop (bucketOf articles) (effOrder articles source_order) limit fuel perSource picked

/-- `pick_articles_balanced(articles, limit, per_source, source_order)`. -/
def pick_articles_balanced (articles : List Article) (limit perSource : Nat)
    (source_order : List String) : List Article :=
  pickBalancedFuel (maxBucketLen (bucketOf articles) (effOrder articles source_order) + 1)
    articles limit perSource source_order

/-- A concrete test article with `title = link` and `source = source_name`. -/
def art (t s : String) : Article :=
  { title := t, link := some t, description := none, source := some s, source_name := some s }

/-- Claim C3: on sources `["s1","s2"]` with five `s1` articles and one `s2`
article, `per_source = 2` and `limit = 4`, the selector returns
`[s1[0], s1[1], s2[0], s1[2]]`: pass 1 takes two from `s1` and one from
`s2`, and the fill pass takes one more from `s1` at offset 2. -/
theorem pick_articles_balanced_example :
    pick_articles_balanced
        [art "s1a" "s1", art "s1b" "s1", art "s1c" "s1", art "s1d" "s1", art "s1e" "s1",
         art "s2a" "s2"]
        4 2 ["s1", "s2"]
      = [art "s1a" "s1", art "s1b" "s1", art "s2a" "s2", art "s1c" "s1"] := by
  decide

/-- Counterexample to claim C2 as stated: with the explicit priority order
`["s1"]`, which omits source `s2`, the selector returns only the `s1`
article even though both candidates would fit under `limit = 5`; the `s2`
candidate is silently dropped, so the result does not contain every
candidate. -/
theorem pick_balanced_drops_unlisted_source :
    pick_articles_balanced [art "a1" "s1", art "a2" "s2"] 5 1 ["s1"] = [art "a1" "s1"]
    ∧ ([art "a1" "s1", art "a2" "s2"] : List Article).length < 5
    ∧ art "a2" "s2" ∈ [art "a1" "s1", art "a2" "s2"]
    ∧ art "a2" "s2" ∉ pick_articles_balanced [art "a1" "s1", art "a2" "s2"] 5 1 ["s1"] := by
  decide

/-! ### Unfolding equations for the selector -/

theorem pass1_nil (bkts : String → List Article) (perSource limit : Nat)
    (picked : List Article) :
    pass1 bkts perSource limit [] picked = Sum.inr picked := rfl

theorem pass1_cons (bkts : String → List Article) (perSource limit : Nat)
    (src : String) (rest : List String) (picked : List Article) :
    pass1 bkts perSource limit (src :: rest) picked =
      if limit ≤ (picked ++ (bkts src).take perSource).length then
        Sum.inl ((picked ++ (bkts src).take perSource).take limit)
      else pass1 bkts perSource limit rest (picked ++ (bkts src).take perSource) := rfl

theorem fillPass_nil (bkts : String → List Article) (i limit : Nat)
    (picked : List Article) (prog : Bool) :
    fillPass bkts i limit [] picked prog = Sum.inr (picked, prog) := rfl

theorem fillPass_cons_none (bkts : String → List Article) (i limit : Nat)
    (src : String) (rest : List String) (picked : List Article) (prog : Bool)
    (h : (bkts src)[i]? = none) :
    fillPass bkts i limit (src :: rest) picked prog = fillPass bkts i limit rest picked prog := by
  conv_lhs => unfold fillPass
  simp only [h]

theorem fillPass_cons_some (bkts : String → List Article) (i limit : Nat)
    (src : String) (rest : List String) (picked : List Article) (prog : Bool)
    (a : Article) (h : (bkts src)[i]? = some a) :
    fillPass bkts i limit (src :: rest) picked prog =
      if limit ≤ (picked ++ [a]).length then Sum.inl ((picked ++ [a]).take limit)
      else fillPass bkts i limit rest (picked ++ [a]) true := by
  conv_lhs => unfold fillPass
  simp only [h]

theorem fillLoop_zero (bkts : String → List Article) (order : List String) (limit i : Nat)
    (picked : List Article) :
    fillLoop bkts order limit 0 i picked = picked.take limit := rfl

theorem fillLoop_succ (bkts : String → List Article) (order : List String)
    (limit fuel i : Nat) (picked : List Article) :
    fillLoop bkts order limit (fuel + 1) i picked =
      if picked.length < limit then
        match fillPass bkts i limit order picked false with
        | Sum.inl result => result
        | Sum.inr (picked', true) => fillLoop bkts order limit fuel (i + 1) picked'
        | Sum.inr (picked', false) => picked'.take limit
      else picked.take limit := rfl

/-! ### Selector membership (claim C9) -/

/-- Pass 1 only returns articles drawn from the incoming accumulator or from
the buckets of the sources in the order list. -/
theorem pass1_mem (bkts : String → List Article) (perSource limit : Nat) :
    ∀ (ord : List String) (picked r : List Article) (x : Article),
      (pass1 bkts perSource limit ord picked = Sum.inl r
        ∨ pass1 bkts perSource limit ord picked = Sum.inr r) →
      x ∈ r → x ∈ picked ∨ ∃ s ∈ ord, x ∈ bkts s := by
  intro ord
  induction ord with
  | nil =>
    intro picked r x hres hx
    rcases hres with h | h
    · exact absurd h (by simp [pass1_nil])
    · rw [pass1_nil] at h
      left
      rw [Sum.inr.inj h]
      exact hx
  | cons src rest ih =>
    intro picked r x hres hx
    rw [pass1_cons] at hres
    by_cases hlim : limit ≤ (picked ++ (bkts src).take perSource).length
    · rw [if_pos hlim] at hres
      have hr : r = (picked ++ (bkts src).take perSource).take limit := by
        rcases hres with h | h
        · exact (Sum.inl.inj h).symm
        · exact absurd h (by simp)
      rw [hr] at hx
      have hx' := List.mem_of_mem_take hx
      rcases List.mem_append.1 hx' with h | h
      · exact Or.inl h
      · exact Or.inr ⟨src, List.mem_cons_self src rest, List.mem_of_mem_take h⟩
    · rw [if_neg hlim] at hres
      rcases ih (picked ++ (bkts src).take perSource) r x hres hx with h | ⟨s, hs, hxs⟩
      · rcases List.mem_append.1 h with h' | h'
        · exact Or.inl h'
        · exact Or.inr ⟨src, List.mem_cons_self src rest, List.mem_of_mem_take h'⟩
      · exact Or.inr ⟨s, List.mem_cons_of_mem src hs, hxs⟩

/-- One fill round only returns articles drawn from the accumulator or the
buckets of the sources in the order list. -/
theorem fillPass_mem (bkts : String → List Article) (i limit : Nat) :
    ∀ (ord : List String) (picked r : List Article) (prog : Bool) (x : Article),
      (fillPass bkts i limit ord picked prog = Sum.inl r
        ∨ ∃ b, fillPass bkts i limit ord picked prog = Sum.inr (r, b)) →
      x ∈ r → x ∈ picked ∨ ∃ s ∈ ord, x ∈ bkts s := by
  intro ord
  induction ord with
  | nil =>
    intro picked r prog x hres hx
    rcases hres with h | ⟨b, h⟩
    · exact absurd h (by simp [fillPass_nil])
    · rw [fillPass_nil] at h
      left
      have : picked = r := congrArg Prod.fst (Sum.inr.inj h)
      rw [← this] at hx
      exact hx
  | cons src rest ih =>
    intro picked r prog x hres hx
    cases hget : (bkts src)[i]? with
    | none =>
      rw [fillPass_cons_none bkts i limit src rest picked prog hget] at hres
      rcases ih picked r prog x hres hx with h | ⟨s, hs, hxs⟩
      · exact Or.inl h
      · exact Or.inr ⟨s, List.mem_cons_of_mem src hs, hxs⟩
    | some a =>
      rw [fillPass_cons_some bkts i limit src rest picked prog a hget] at hres
      have hmem_a : a ∈ bkts src := List.getElem?_mem hget
      by_cases hlim : limit ≤ (picked ++ [a]).length
      · rw [if_pos hlim] at hres
        have hr : r = (picked ++ [a]).take limit := by
          rcases hres with h | ⟨b, h⟩
          · exact (Sum.inl.inj h).symm
          · exact absurd h (by simp)
        rw [hr] at hx
        rcases List.mem_append.1 (List.mem_of_mem_take hx) with h | h
        · exact Or.inl h
        · rw [List.mem_singleton.1 h]
          exact Or.inr ⟨src, List.mem_cons_self src rest, hmem_a⟩
      · rw [if_neg hlim] at hres
        rcases ih (picked ++ [a]) r true x hres hx with h | ⟨s, hs, hxs⟩
        · rcases List.mem_append.1 h with h' | h'
          · exact Or.inl h'
          · rw [List.mem_singleton.1 h']
            exact Or.inr ⟨src, List.mem_cons_self src rest, hmem_a⟩
        · exact Or.inr ⟨s, List.mem_cons_of_mem src hs, hxs⟩

/-- The fill loop only returns articles drawn from the accumulator or the
buckets of the sources in the order list. -/
theorem fillLoop_mem (bkts : String → List Article) (order : List String) (limit : Nat) :
    ∀ (fuel i : Nat) (picked : List Article) (x : Article),
      x ∈ fillLoop bkts order limit fuel i picked →
      x ∈ picked ∨ ∃ s ∈ order, x ∈ bkts s := by
  intro fuel
  induction fuel with
  | zero =>
    intro i picked x hx
    rw [fillLoop_zero] at hx
    exact Or.inl (List.mem_of_mem_take hx)
  | succ fuel ih =>
    intro i picked x hx
    rw [fillLoop_succ] at hx
    by_cases hlen : picked.length < limit
    · rw [if_pos hlen] at hx
      cases hres : fillPass bkts i limit order picked false with
      | inl result =>
        rw [hres] at hx
        exact fillPass_mem bkts i limit order picked result false x (Or.inl hres) hx
      | inr pr =>
        obtain ⟨picked', prog⟩ := pr
        rw [hres] at hx
        cases prog with
        | true =>
          rcases ih (i + 1) picked' x hx with h | h
          · exact fillPass_mem bkts i limit order picked picked' false x (Or.inr ⟨true, hres⟩) h
          · exact Or.inr h
        | false =>
          exact fillPass_mem bkts i limit order picked picked' false x (Or.inr ⟨false, hres⟩)
            (List.mem_of_mem_take hx)
    · rw [if_neg hlen] at hx
      exact Or.inl (List.mem_of_mem_take hx)

/-- Everything the selector returns comes from the bucket of a source in the
effective priority order. -/
theorem pick_articles_balanced_mem (articles : List Article) (limit perSource : Nat)
    (source_order : List String) (x : Article)
    (hx : x ∈ pick_articles_balanced articles limit perSource source_order) :
    ∃ s ∈ effOrder articles source_order, x ∈ bucketOf articles s := by
  unfold pick_articles_balanced pickBalancedFuel at hx
  cases hres : pass1 (bucketOf articles) perSource limit (effOrder articles source_order) [] with
  | inl result =>
    rw [hres] at hx
    rcases pass1_mem (bucketOf articles) perSource limit (effOrder articles source_order)
        [] result x (Or.inl hres) hx with h | h
    · exact absurd h (List.not_mem_nil x)
    · exact h
  | inr picked =>
    rw [hres] at hx
    rcases fillLoop_mem (bucketOf articles) (effOrder articles source_order) limit _ perSource
        picked x hx with h | h
    · rcases pass1_mem (bucketOf articles) perSource limit (effOrder articles source_order)
          [] picked x (Or.inr hres) h with h' | h'
      · exact absurd h' (List.not_mem_nil x)
      · exact h'
    · exact h

/-- Claim C9: with a non-empty explicit `source_order`, every article in the
selector's result has its source in `source_order` — candidates from
unlisted sources are excluded regardless of `limit` and `per_source` — and
the lexicographically sorted observed sources are used as the order exactly
when `source_order` is empty. -/
theorem pick_articles_balanced_source_order (articles : List Article)
    (limit perSource : Nat) (source_order : List String) :
    (source_order ≠ [] →
      ∀ x ∈ pick_articles_balanced articles limit perSource source_order,
        sourceOf x ∈ source_order)
    ∧ (source_order ≠ [] → effOrder articles source_order = source_order)
    ∧ effOrder articles [] = sortedKeys articles := by
  refine ⟨fun hne x hx => ?_, fun hne => ?_, by simp [effOrder]⟩
  · obtain ⟨s, hs, hxs⟩ := pick_articles_balanced_mem articles limit perSource source_order x hx
    have hsrc : sourceOf x = s := by
      have := (List.mem_filter.1 hxs).2
      simpa [bucketOf] using this
    rw [hsrc]
    rw [effOrder, if_neg (by simpa [List.isEmpty_iff] using hne)] at hs
    exact hs
  · rw [effOrder, if_neg (by simpa [List.isEmpty_iff] using hne)]

/-- Witness for claim C9: the lone listed-source article is in the result and
its source is in the explicit order. -/
theorem pick_articles_balanced_source_order_witness :
    sourceOf (art "a1" "s1") ∈ (["s1"] : List String) :=
  (pick_articles_balanced_source_order [art "a1" "s1", art "a2" "s2"] 5 1 ["s1"]).1
    (by decide) (art "a1" "s1") (by decide)

/-! ### Selector termination and length bound (claim C10) -/

theorem pass1_inl_length (bkts : String → List Article) (perSource limit : Nat) :
    ∀ (ord : List String) (picked r : List Article),
      pass1 bkts perSource limit ord picked = Sum.inl r → r.length ≤ limit := by
  intro ord
  induction ord with
  | nil => intro picked r h; exact absurd h (by simp [pass1_nil])
  | cons src rest ih =>
    intro picked r h
    rw [pass1_cons] at h
    by_cases hlim : limit ≤ (picked ++ (bkts src).take perSource).length
    · rw [if_pos hlim] at h
      rw [← Sum.inl.inj h]
      exact List.length_take_le limit _
    · rw [if_neg hlim] at h
      exact ih _ r h

theorem fillPass_inl_length (bkts : String → List Article) (i limit : Nat) :
    ∀ (ord : List String) (picked r : List Article) (prog : Bool),
      fillPass bkts i limit ord picked prog = Sum.inl r → r.length ≤ limit := by
  intro ord
  induction ord with
  | nil => intro picked r prog h; exact absurd h (by simp [fillPass_nil])
  | cons src rest ih =>
    intro picked r prog h
    cases hget : (bkts src)[i]? with
    | none =>
      rw [fillPass_cons_none bkts i limit src rest picked prog hget] at h
      exact ih picked r prog h
    | some a =>
      rw [fillPass_cons_some bkts i limit src rest picked prog a hget] at h
      by_cases hlim : limit ≤ (picked ++ [a]).length
      · rw [if_pos hlim] at h
        rw [← Sum.inl.inj h]
        exact List.length_take_le limit _
      · rw [if_neg hlim] at h
        exact ih _ r true h

theorem fillLoop_length (bkts : String → List Article) (order : List String) (limit : Nat) :
    ∀ (fuel i : Nat) (picked : List Article),
      (fillLoop bkts order limit fuel i picked).length ≤ limit := by
  intro fuel
  induction fuel with
  | zero => intro i picked; rw [fillLoop_zero]; exact List.length_take_le limit picked
  | succ fuel ih =>
    intro i picked
    rw [fillLoop_succ]
    by_cases hlen : picked.length < limit
    · rw [if_pos hlen]
      cases hres : fillPass bkts i limit order picked false with
      | inl result => exact fillPass_inl_length bkts i limit order picked result false hres
      | inr pr =>
        obtain ⟨picked', prog⟩ := pr
        cases prog with
        | true => exact ih (i + 1) picked'
        | false => exact List.length_take_le limit picked'
    · rw [if_neg hlen]
      exact List.length_take_le limit picked

theorem le_maxBucketLen (bkts : String → List Article) :
    ∀ (order : List String) (s : String), s ∈ order →
      (bkts s).length ≤ maxBucketLen bkts order := by
  intro order
  induction order with
  | nil => intro s hs; exact absurd hs (List.not_mem_nil s)
  | cons s0 rest ih =>
    intro s hs
    rcases List.mem_cons.1 hs with h | h
    · rw [h]
      exact le_max_left _ _
    · exact le_trans (ih s h) (le_max_right _ _)

theorem fillPass_past_end (bkts : String → List Article) (i limit : Nat) :
    ∀ (ord : List String) (picked : List Article) (prog : Bool),
      (∀ s ∈ ord, (bkts s).length ≤ i) →
      fillPass bkts i limit ord picked prog = Sum.inr (picked, prog) := by
  intro ord
  induction ord with
  | nil => intro picked prog _; exact fillPass_nil bkts i limit picked prog
  | cons src rest ih =>
    intro picked prog hlen
    have hget : (bkts src)[i]? = none :=
      List.getElem?_eq_none (hlen src (List.mem_cons_self src rest))
    rw [fillPass_cons_none bkts i limit src rest picked prog hget]
    exact ih picked prog (fun s hs => hlen s (List.mem_cons_of_mem src hs))

theorem fillLoop_exhausted (bkts : String → List Article) (order : List String)
    (limit i : Nat) (picked : List Article)
    (hi : maxBucketLen bkts order + 1 ≤ i) :
    ∀ fuel, fillLoop bkts order limit fuel i picked = picked.take limit := by
  intro fuel
  cases fuel with
  | zero => exact fillLoop_zero bkts order limit i picked
  | succ fuel =>
    rw [fillLoop_succ]
    by_cases hlen : picked.length < limit
    · rw [if_pos hlen]
      have hpast : ∀ s ∈ order, (bkts s).length ≤ i :=
        fun s hs => le_trans (le_maxBucketLen bkts order s hs) (Nat.le_of_succ_le hi)
      rw [fillPass_past_end bkts i limit order picked false hpast]
    · rw [if_neg hlen]

theorem fillLoop_fuel_stable (bkts : String → List Article) (order : List String)
    (limit : Nat) :
    ∀ (f g i : Nat) (picked : List Article),
      maxBucketLen bkts order + 1 ≤ i + f → maxBucketLen bkts order + 1 ≤ i + g →
      fillLoop bkts order limit f i picked = fillLoop bkts order limit g i picked := by
  intro f
  induction f with
  | zero =>
    intro g i picked hf hg
    rw [fillLoop_zero, fillLoop_exhausted bkts order limit i picked (by simpa using hf) g]
  | succ f ih =>
    intro g i picked hf hg
    cases g with
    | zero =>
      rw [fillLoop_zero, fillLoop_exhausted bkts order limit i picked (by simpa using hg)]
    | succ g =>
      rw [fillLoop_succ, fillLoop_succ]
      by_cases hlen : picked.length < limit
      · rw [if_pos hlen, if_pos hlen]
        cases hres : fillPass bkts i limit order picked false with
        | inl result => rfl
        | inr pr =>
          obtain ⟨picked', prog⟩ := pr
          cases prog with
          | true =>
            exact ih g (i + 1) picked'
              (by omega) (by omega)
          | false => rfl
      · rw [if_neg hlen, if_neg hlen]

/-- Claim C10: the selector's fill loop terminates by itself on every finite
input — giving the embedded loop any amount of fuel beyond the
`maxBucketLen + 1` rounds it can possibly use does not change the result
(once every bucket is shorter than the round index, a full round makes no
progress and the loop exits) — and the returned list always has length at
most `limit`. -/
theorem pick_articles_balanced_terminates (articles : List Article)
    (limit perSource : Nat) (source_order : List String) :
    (pick_articles_balanced articles limit perSource source_order).length ≤ limit
    ∧ ∀ extra,
        pickBalancedFuel
            (maxBucketLen (bucketOf articles) (effOrder articles source_order) + 1 + extra)
            articles limit perSource source_order
          = pick_articles_balanced articles limit perSource source_order := by
  constructor
  · unfold pick_articles_balanced pickBalancedFuel
    cases hres : pass1 (bucketOf articles) perSource limit (effOrder articles source_order) [] with
    | inl result =>
      exact pass1_inl_length (bucketOf articles) perSource limit
        (effOrder articles source_order) [] result hres
    | inr picked => exact fillLoop_length (bucketOf articles) (effOrder articles source_order) limit _ perSource picked
  · intro extra
    unfold pick_articles_balanced pickBalancedFuel
    cases hres : pass1 (bucketOf articles) perSource limit (effOrder articles source_order) [] with
    | inl result => rfl
    | inr picked =>
      exact fillLoop_fuel_stable (bucketOf articles) (effOrder articles source_order) limit
        _ _ perSource picked (by omega) (by omega)

/-! ### Selector completeness below the limit (claim C2)

When the effective priority order is duplicate-free and covers every
observed source, the buckets partition the candidate list, pass 1 never
short-circuits below the limit, and the fill loop drains every bucket, so
the result is a permutation of the input. -/

/-- With a duplicate-free order covering every observed source, the
concatenation of the buckets is a permutation of the articles. -/
theorem flatMap_bucketOf_perm :
    ∀ (ord : List String) (articles : List Article), ord.Nodup →
      (∀ a ∈ articles, sourceOf a ∈ ord) →
      (ord.flatMap (bucketOf articles)).Perm articles := by
  intro ord
  induction ord with
  | nil =>
    intro articles _ hcov
    have : articles = [] := by
      cases articles with
      | nil => rfl
      | cons a rest => exact absurd (hcov a (List.mem_cons_self a rest)) (List.not_mem_nil _)
    rw [this]
    simp
  | cons k ks ih =>
    intro articles hnd hcov
    have hknotin : k ∉ ks := (List.nodup_cons.1 hnd).1
    have hndks : ks.Nodup := (List.nodup_cons.1 hnd).2
    have hbkt : ∀ s ∈ ks, bucketOf articles s
        = bucketOf (articles.filter (fun a => !(sourceOf a == k))) s := by
      intro s hs
      have hne : s ≠ k := fun h => hknotin (h ▸ hs)
      unfold bucketOf
      rw [List.filter_filter]
      refine (List.filter_congr ?_).symm
      intro a _
      cases hsa : (sourceOf a == s) with
      | false => simp
      | true =>
        have : sourceOf a = s := by simpa using hsa
        simp [this, hne]
    have hflat : ks.flatMap (bucketOf articles)
        = ks.flatMap (bucketOf (articles.filter (fun a => !(sourceOf a == k)))) :=
      List.flatMap_congr hbkt
    have hcov' : ∀ a ∈ articles.filter (fun a => !(sourceOf a == k)), sourceOf a ∈ ks := by
      intro a ha
      obtain ⟨hmem, hkeep⟩ := List.mem_filter.1 ha
      have hnk : sourceOf a ≠ k := by simpa using hkeep
      rcases List.mem_cons.1 (hcov a hmem) with h | h
      · exact absurd h hnk
      · exact h
    have hperm' := ih (articles.filter (fun a => !(sourceOf a == k))) hndks hcov'
    have step1 : (k :: ks).flatMap (bucketOf articles)
        = bucketOf articles k
            ++ ks.flatMap (bucketOf (articles.filter (fun a => !(sourceOf a == k)))) := by
      rw [List.flatMap_cons, hflat]
    rw [step1]
    exact List.Perm.trans (hperm'.append_left (bucketOf articles k))
      (List.filter_append_perm (fun a => sourceOf a == k) articles)

/-- Truncating every bucket can only shorten the concatenation. -/
theorem length_flatMap_take_le (bkts : String → List Article) (n : Nat) :
    ∀ ord : List String,
      (ord.flatMap (fun s => (bkts s).take n)).length ≤ (ord.flatMap bkts).length := by
  intro ord
  induction ord with
  | nil => simp
  | cons s rest ih =>
    simp only [List.flatMap_cons, List.length_append]
    have h1 : ((bkts s).take n).length ≤ (bkts s).length := by
      rw [List.length_take]
      exact min_le_right n _
    omega

/-- If the limit cannot be reached, pass 1 returns the concatenation of the
truncated buckets. -/
theorem pass1_no_shortcircuit (bkts : String → List Article) (perSource limit : Nat) :
    ∀ (ord : List String) (picked : List Article),
      picked.length + (ord.flatMap (fun s => (bkts s).take perSource)).length < limit →
      pass1 bkts perSource limit ord picked
        = Sum.inr (picked ++ ord.flatMap (fun s => (bkts s).take perSource)) := by
  intro ord
  induction ord with
  | nil => intro picked _; simp [pass1_nil]
  | cons src rest ih =>
    intro picked hlen
    simp only [List.flatMap_cons, List.length_append] at hlen
    rw [pass1_cons, if_neg (by rw [List.length_append]; omega)]
    rw [ih (picked ++ (bkts src).take perSource) (by rw [List.length_append]; omega)]
    rw [List.append_assoc, List.flatMap_cons]

/-- If the limit cannot be reached, one fill round appends the index-`i`
items of all buckets and reports progress exactly when some bucket still
has an item at index `i`. -/
theorem fillPass_no_shortcircuit (bkts : String → List Article) (i limit : Nat) :
    ∀ (ord : List String) (picked : List Article) (prog : Bool),
      picked.length + (ord.filterMap (fun s => (bkts s)[i]?)).length < limit →
      fillPass bkts i limit ord picked prog
        = Sum.inr (picked ++ ord.filterMap (fun s => (bkts s)[i]?),
            prog || ord.any (fun s => decide (i < (bkts s).length))) := by
  intro ord
  induction ord with
  | nil => intro picked prog _; simp [fillPass_nil]
  | cons src rest ih =>
    intro picked prog hlen
    cases hget : (bkts src)[i]? with
    | none =>
      have hfm : (src :: rest).filterMap (fun s => (bkts s)[i]?)
          = rest.filterMap (fun s => (bkts s)[i]?) := by
        simp [List.filterMap_cons, hget]
      have hnolt : ¬ i < (bkts src).length := by
        intro hlt
        rw [List.getElem?_eq_getElem hlt] at hget
        exact Option.noConfusion hget
      rw [hfm] at hlen
      rw [fillPass_cons_none bkts i limit src rest picked prog hget, hfm,
        ih picked prog hlen]
      simp [hnolt]
    | some a =>
      have hfm : (src :: rest).filterMap (fun s => (bkts s)[i]?)
          = a :: rest.filterMap (fun s => (bkts s)[i]?) := by
        simp [List.filterMap_cons, hget]
      have hlt : i < (bkts src).length := by
        by_contra hcon
        rw [List.getElem?_eq_none (Nat.le_of_not_lt hcon)] at hget
        exact Option.noConfusion hget
      rw [hfm] at hlen ⊢
      simp only [List.length_cons] at hlen
      rw [fillPass_cons_some bkts i limit src rest picked prog a hget,
        if_neg (by rw [List.length_append]; simp; omega)]
      rw [ih (picked ++ [a]) true (by rw [List.length_append]; simp; omega)]
      simp [List.append_assoc, hlt]

/-- Splitting every bucket contribution in two splits the concatenation, up
to permutation. -/
theorem flatMap_append_perm (f g : String → List Article) :
    ∀ ord : List String,
      (ord.flatMap (fun s => f s ++ g s)).Perm (ord.flatMap f ++ ord.flatMap g) := by
  intro ord
  induction ord with
  | nil => simp
  | cons s rest ih =>
    simp only [List.flatMap_cons]
    refine List.Perm.trans (ih.append_left (f s ++ g s)) ?_
    rw [List.append_assoc (f s) (rest.flatMap f) (g s ++ rest.flatMap g),
        List.append_assoc (f s) (g s) (rest.flatMap f ++ rest.flatMap g)]
    refine List.Perm.append_left (f s) ?_
    rw [← List.append_assoc (g s) (rest.flatMap f) (rest.flatMap g),
        ← List.append_assoc (rest.flatMap f) (g s) (rest.flatMap g)]
    exact List.perm_append_comm.append_right (rest.flatMap g)

/-- The optional index-`i` items of the buckets, as a `filterMap`. -/
theorem flatMap_toList_eq_filterMap (bkts : String → List Article) (i : Nat) :
    ∀ ord : List String,
      ord.flatMap (fun s => ((bkts s)[i]?).toList)
        = ord.filterMap (fun s => (bkts s)[i]?) := by
  intro ord
  induction ord with
  | nil => rfl
  | cons s rest ih =>
    cases hget : (bkts s)[i]? with
    | none => simp [List.flatMap_cons, List.filterMap_cons, hget, ih]
    | some a => simp [List.flatMap_cons, List.filterMap_cons, hget, ih]

/-- Extending every bucket truncation by one index appends exactly the
index-`i` items, up to permutation. -/
theorem flatMap_take_succ_perm (bkts : String → List Article) (i : Nat)
    (ord : List String) :
    (ord.flatMap (fun s => (bkts s).take (i + 1))).Perm
      (ord.flatMap (fun s => (bkts s).take i)
        ++ ord.filterMap (fun s => (bkts s)[i]?)) := by
  have hstep : ord.flatMap (fun s => (bkts s).take (i + 1))
      = ord.flatMap (fun s => (bkts s).take i ++ ((bkts s)[i]?).toList) :=
    List.flatMap_congr (fun s _ => List.take_succ)
  rw [hstep, ← flatMap_toList_eq_filterMap bkts i ord]
  exact flatMap_append_perm _ _ ord

/-- Fill-loop invariant: if the accumulator is a permutation of all buckets
truncated at the current index and the total supply is below the limit, the
loop drains every bucket. -/
theorem fillLoop_perm (bkts : String → List Article) (order : List String) (limit : Nat)
    (htot : (order.flatMap bkts).length < limit) :
    ∀ (fuel i : Nat) (picked : List Article),
      picked.Perm (order.flatMap (fun s => (bkts s).take i)) →
      maxBucketLen bkts order + 1 ≤ i + fuel →
      (fillLoop bkts order limit fuel i picked).Perm (order.flatMap bkts) := by
  intro fuel
  induction fuel with
  | zero =>
    intro i picked hperm hfuel
    have hfull : order.flatMap (fun s => (bkts s).take i) = order.flatMap bkts :=
      List.flatMap_congr (fun s hs => List.take_of_length_le
        (le_trans (le_maxBucketLen bkts order s hs) (by omega)))
    have hlenp : picked.length < limit := by
      rw [hperm.length_eq, hfull]
      exact htot
    rw [fillLoop_zero, List.take_of_length_le (Nat.le_of_lt hlenp)]
    rw [hfull] at hperm
    exact hperm
  | succ fuel ih =>
    intro i picked hperm hfuel
    have hlenp : picked.length < limit := by
      rw [hperm.length_eq]
      exact lt_of_le_of_lt (length_flatMap_take_le bkts i order) htot
    have hsucc := flatMap_take_succ_perm bkts i order
    have hlen2 : picked.length + (order.filterMap (fun s => (bkts s)[i]?)).length < limit := by
      have heq : picked.length + (order.filterMap (fun s => (bkts s)[i]?)).length
          = (order.flatMap (fun s => (bkts s).take (i + 1))).length := by
        rw [hperm.length_eq, hsucc.length_eq, List.length_append]
      rw [heq]
      exact lt_of_le_of_lt (length_flatMap_take_le bkts (i + 1) order) htot
    rw [fillLoop_succ, if_pos hlenp,
      fillPass_no_shortcircuit bkts i limit order picked false hlen2]
    have hperm' : (picked ++ order.filterMap (fun s => (bkts s)[i]?)).Perm
        (order.flatMap (fun s => (bkts s).take (i + 1))) :=
      List.Perm.trans (hperm.append_right _) hsucc.symm
    cases hany : order.any (fun s => decide (i < (bkts s).length)) with
    | true =>
      show (fillLoop bkts order limit fuel (i + 1)
          (picked ++ order.filterMap (fun s => (bkts s)[i]?))).Perm (order.flatMap bkts)
      exact ih (i + 1) _ hperm' (by omega)
    | false =>
      show ((picked ++ order.filterMap (fun s => (bkts s)[i]?)).take limit).Perm
        (order.flatMap bkts)
      have hshort : ∀ s ∈ order, (bkts s).length ≤ i := by
        intro s hs
        have hne := (List.any_eq_false.1 hany) s hs
        by_contra hcon
        exact hne (by simpa using Nat.lt_of_not_le hcon)
      have hfm_nil : order.filterMap (fun s => (bkts s)[i]?) = [] :=
        List.filterMap_eq_nil_iff.2
          (fun s hs => List.getElem?_eq_none (hshort s hs))
      have hfull : order.flatMap (fun s => (bkts s).take i) = order.flatMap bkts :=
        List.flatMap_congr (fun s hs => List.take_of_length_le (hshort s hs))
      rw [hfm_nil, List.append_nil, List.take_of_length_le (Nat.le_of_lt hlenp)]
      rw [hfull] at hperm
      exact hperm

/-- Claim C2, amended: when the total number of candidates is strictly below
`limit` and the effective source priority order (the explicit `source_order`
when non-empty, the sorted observed sources otherwise) is duplicate-free and
mentions the source of every candidate, the selector returns every candidate
exactly once — its result is a permutation of the input — for every value of
`per_source`.  (As the counterexample shows, an explicit order that omits an
observed source drops that source's candidates, so the claim's quantification
over arbitrary priority orders fails; coverage and freedom from duplicates
are exactly what the counterexample forces.) -/
theorem pick_articles_balanced_complete_under_limit (articles : List Article)
    (limit perSource : Nat) (source_order : List String)
    (hlt : articles.length < limit)
    (hnd : (effOrder articles source_order).Nodup)
    (hcov : ∀ a ∈ articles, sourceOf a ∈ effOrder articles source_order) :
    (pick_articles_balanced articles limit perSource source_order).Perm articles := by
  have hpart := flatMap_bucketOf_perm (effOrder articles source_order) articles hnd hcov
  have htot : ((effOrder articles source_order).flatMap (bucketOf articles)).length
      < limit := by
    rw [hpart.length_eq]
    exact hlt
  have hlen0 : ([] : List Article).length
      + ((effOrder articles source_order).flatMap
          (fun s => (bucketOf articles s).take perSource)).length < limit := by
    simp only [List.length_nil, Nat.zero_add]
    exact lt_of_le_of_lt (length_flatMap_take_le (bucketOf articles) perSource _) htot
  unfold pick_articles_balanced pickBalancedFuel
  rw [pass1_no_shortcircuit (bucketOf articles) perSource limit _ [] hlen0]
  show (fillLoop (bucketOf articles) (effOrder articles source_order) limit
      (maxBucketLen (bucketOf articles) (effOrder articles source_order) + 1) perSource
      ([] ++ (effOrder articles source_order).flatMap
        (fun s => (bucketOf articles s).take perSource))).Perm articles
  rw [List.nil_append]
  exact List.Perm.trans
    (fillLoop_perm (bucketOf articles) (effOrder articles source_order) limit htot
      (maxBucketLen (bucketOf articles) (effOrder articles source_order) + 1) perSource
      _ (List.Perm.refl _) (by omega))
    hpart

/-- Witness for the amended claim C2: two candidates from two covered
sources, `limit = 3`, are both returned. -/
theorem pick_articles_balanced_complete_under_limit_witness :
    (pick_articles_balanced [art "a1" "s1", art "a2" "s2"] 3 1 ["s1", "s2"]).Perm
      [art "a1" "s1", art "a2" "s2"] :=
  pick_articles_balanced_complete_under_limit [art "a1" "s1", art "a2" "s2"] 3 1 ["s1", "s2"]
    (by decide) (by decide) (by decide)
